import Mathlib

/-!
Shallow embedding of the bounded-buffer producer/consumer program
(`src/Code/main.cc`, `src/Code/helper.cc`) and proofs of the spec's claims
about it.

Conventions of the embedding:
* C `int` values that the program keeps nonnegative (queue indices, sizes)
  are modelled as `Nat`; values that can be `-1` or arbitrary (return codes,
  job fields, `errno`) are modelled as `Int`.
* The global `my_queue` and `buffer_size` of `main.cc` become explicit
  parameters threaded through the functions that read them.
* Calls into the OS (`rand`, `semtimedop`, `semctl` failures) are modelled by
  oracle parameters supplying the value the OS would have returned.
-/

/-- Semaphore index `item` from main.cc: `int item = 0`. -/
def item : Nat := 0

/-- Semaphore index `space` from main.cc: `space = 1`. -/
def space : Nat := 1

/-- Semaphore index `mutex` from main.cc: `mutex = 2`. -/
def mutex : Nat := 2

/-- Modelled from the spec: `helper.h` is not under `src/`, so the status
constants it defines are missing; `NO_ERROR` is the success status, which the
process-exit convention (success exits with 0, failures exit with a nonzero
errno or error constant) fixes at 0. -/
def NO_ERROR : Int := 0

/-- Job record from main.cc: `struct job { int job_id; int duration; }`. -/
structure job where
  job_id : Int
  duration : Int
  deriving DecidableEq, Repr

instance : Inhabited job := ⟨⟨0, 0⟩⟩

/-- Circular-queue record from main.cc:
`struct circular_queue { int head; int tail; int array_size; job *data; }`.
The backing array `data` is modelled as a `List job` of length `array_size`. -/
structure circular_queue where
  head : Nat
  tail : Nat
  array_size : Nat
  data : List job
  deriving DecidableEq, Repr

/-- `initializeQueue` (main.cc lines 217-223): `head = 0`, `tail = 0`,
`array_size = buffer_size`, `data = new job[buffer_size]`.  The C allocation
leaves the slots' contents indeterminate; the model fills them with the
default job, and no claim depends on the content of a never-deposited slot. -/
def initializeQueue (buffer_size : Nat) : circular_queue :=
  { head := 0, tail := 0, array_size := buffer_size,
    data := List.replicate buffer_size default }

/-- `deposit_item` (main.cc lines 226-230): writes `new_job` at index `tail`
of the backing array, then `tail = (tail + 1) % buffer_size`.  As in the
source, the modulus uses the global `buffer_size`, passed here explicitly. -/
def deposit_item (buffer_size : Nat) (q : circular_queue) (new_job : job) :
    circular_queue :=
  { q with data := q.data.set q.tail new_job,
           tail := (q.tail + 1) % buffer_size }

/-- `fetch_item` (main.cc lines 233-239): reads the job at index `head`, then
`head = (head + 1) % buffer_size`; returns the job read together with the
updated queue (the C function mutates the global queue and returns the job). -/
def fetch_item (buffer_size : Nat) (q : circular_queue) : job × circular_queue :=
  (q.data.getD q.head default,
   { q with head := (q.head + 1) % buffer_size })

/-- `produce` (main.cc lines 242-246): `min + (rand() % max)`.  The value
returned by `rand()` is the oracle parameter `r`; C's `%` on `int` truncates
toward zero, which is `Int.tmod`. -/
def produce (min max : Int) (r : Int) : Int :=
  min + Int.tmod r max

/-- Accumulation loop of `check_arg` (helper.cc lines 18-24): at position `i`
the character code is tested against the ASCII digit range 48-57 (returning
`-1` on the first failure, as the C early `return` does) and otherwise
contributes `10 ^ (len - i - 1) * (digit value)` to the accumulator. -/
def check_arg_loop (len : Nat) : List Char → Nat → Nat → Int
  | [], _, num => (num : Int)
  | c :: rest, i, num =>
    if 57 < c.toNat ∨ c.toNat < 48 then -1
    else check_arg_loop len rest (i + 1) (num + 10 ^ (len - i - 1) * (c.toNat - 48))

/-- `check_arg` (helper.cc lines 13-26): returns `-1` for the empty string or
any string holding a non-digit character, and otherwise the decimal value of
the digit string.  The C code computes the positional weights with the
floating-point `pow`, exact for the argument lengths in range here. -/
def check_arg (buffer : List Char) : Int :=
  if buffer.length = 0 then -1 else check_arg_loop buffer.length buffer 0 0

/-- Per-argument validation in `main` (main.cc lines 56-65): an argument is
rejected, with the `NON_POSITIVE_INTEGER` exit, exactly when `check_arg`
returns `-1`. -/
def main_arg_rejected (arg : List Char) : Bool :=
  check_arg arg == -1

/-- C3 evidence: the argument string `"0"` does not denote a positive
integer, yet `check_arg` returns `0` (not `-1`) on it, so `main`'s validation
accepts it and the program proceeds with a zero buffer capacity. -/
theorem check_arg_accepts_zero :
    check_arg ['0'] = 0 ∧ main_arg_rejected ['0'] = false := by
  constructor <;> rfl

/-- C4: from any consistent queue state whose head and tail coincide (the
logically empty queue under the counter protocol), depositing a job `J` and
then fetching with no intervening deposit returns a job whose duration is
`J`'s duration (indeed the job `J` itself). -/
theorem deposit_fetch_roundtrip (C : Nat) (q : circular_queue) (J : job)
    (hlen : q.data.length = C) (hht : q.head = q.tail) (hh : q.head < C) :
    ((fetch_item C (deposit_item C q J)).1).duration = J.duration := by
  have hset : ((q.data.set q.tail J).getD q.head default) = J := by
    rw [hht]
    have ht : q.tail < q.data.length := by omega
    simp [List.getD, List.getElem?_set_self', ht]
  have hfetch : (fetch_item C (deposit_item C q J)).1 =
      (q.data.set q.tail J).getD q.head default := rfl
  rw [hfetch, hset]

/-- C4 witness: capacity 1, the freshly initialized queue, job id 1 and
duration 7. -/
theorem deposit_fetch_roundtrip_witness :
    ((fetch_item 1 (deposit_item 1 (initializeQueue 1) ⟨1, 7⟩)).1).duration =
      (7 : Int) :=
  deposit_fetch_roundtrip 1 (initializeQueue 1) ⟨1, 7⟩ (by rfl) (by rfl)
    (by decide)

/-- C8: for every `min`, every `max > 0` and every nonnegative value `r`
returned by `rand()`, `produce min max r` lies in the half-open interval
`[min, min + max)`; in particular the producer's job duration
`produce 1 10 r` lies in `[1, 10]` and its inter-arrival delay
`produce 1 5 r` lies in `[1, 5]`. -/
theorem produce_in_range (min max r : Int) (hmax : 0 < max) (hr : 0 ≤ r) :
    (min ≤ produce min max r ∧ produce min max r < min + max) ∧
    (1 ≤ produce 1 10 r ∧ produce 1 10 r ≤ 10) ∧
    (1 ≤ produce 1 5 r ∧ produce 1 5 r ≤ 5) := by
  have key : ∀ m : Int, 0 < m → 0 ≤ Int.tmod r m ∧ Int.tmod r m < m := by
    intro m hm
    rw [Int.tmod_eq_emod hr (le_of_lt hm)]
    exact ⟨Int.emod_nonneg r (by omega), Int.emod_lt_of_pos r hm⟩
  have h1 := key max hmax
  have h2 := key 10 (by norm_num)
  have h3 := key 5 (by norm_num)
  unfold produce
  omega

/-- C8 witness: `min = 1`, `max = 10`, `rand()` value 23. -/
theorem produce_in_range_witness :
    ((1 : Int) ≤ produce 1 10 23 ∧ produce 1 10 23 < 1 + 10) ∧
    (1 ≤ produce 1 10 23 ∧ produce 1 10 23 ≤ 10) ∧
    (1 ≤ produce 1 5 23 ∧ produce 1 5 23 ≤ 5) :=
  produce_in_range 1 10 23 (by decide) (by decide)

/-- One call made against the shared queue: a `deposit_item` with the job
passed in, or a `fetch_item`. -/
inductive qop where
  | dep (j : job)
  | fet
  deriving DecidableEq, Repr

/-- Runs a sequence of queue calls from a queue state, with the global
`buffer_size` fixed at `C`, exactly as the workers call `deposit_item` and
`fetch_item` under the mutex. -/
def run (C : Nat) : circular_queue → List qop → circular_queue
  | q, [] => q
  | q, qop.dep j :: t => run C (deposit_item C q j) t
  | q, qop.fet :: t => run C (fetch_item C q).2 t

/-- The jobs passed to `deposit_item` along a call sequence, in order. -/
def deps : List qop → List job
  | [] => []
  | qop.dep j :: t => j :: deps t
  | qop.fet :: t => deps t

/-- The number of `fetch_item` calls in a call sequence. -/
def nfet : List qop → Nat
  | [] => 0
  | qop.dep _ :: t => nfet t
  | qop.fet :: t => nfet t + 1

/-- The counter protocol of the semaphore discipline, checked incrementally:
starting from `d` deposits and `f` fetches already performed, every
`deposit_item` requires a free slot (`d + 1 ≤ f + C`, the producer's
successful wait on `space`) and every `fetch_item` requires a filled slot
(`f + 1 ≤ d`, the consumer's successful wait on `item`). -/
def protocolOK (C : Nat) : Nat → Nat → List qop → Bool
  | _, _, [] => true
  | d, f, qop.dep _ :: t => decide (d + 1 ≤ f + C) && protocolOK C (d + 1) f t
  | d, f, qop.fet :: t => decide (f + 1 ≤ d) && protocolOK C d (f + 1) t

lemma run_append (C : Nat) (t1 t2 : List qop) :
    ∀ q, run C q (t1 ++ t2) = run C (run C q t1) t2 := by
  induction t1 with
  | nil => intro q; rfl
  | cons x t ih => intro q; cases x <;> (simp only [List.cons_append, run]; apply ih)

lemma deps_append (t1 t2 : List qop) : deps (t1 ++ t2) = deps t1 ++ deps t2 := by
  induction t1 with
  | nil => rfl
  | cons x t ih => cases x <;> simp [deps, ih]

lemma nfet_append (t1 t2 : List qop) : nfet (t1 ++ t2) = nfet t1 + nfet t2 := by
  induction t1 with
  | nil => simp [nfet]
  | cons x t ih =>
    cases x with
    | dep j => simp [nfet, ih]
    | fet =>
      simp [nfet, ih]
      omega

lemma protocolOK_append (C : Nat) (t1 t2 : List qop) :
    ∀ d f, protocolOK C d f (t1 ++ t2) =
      (protocolOK C d f t1 && protocolOK C (d + (deps t1).length) (f + nfet t1) t2) := by
  induction t1 with
  | nil => intro d f; simp [protocolOK, deps, nfet]
  | cons x t ih =>
    intro d f
    cases x with
    | dep j =>
      have e1 : protocolOK C d f ((qop.dep j :: t) ++ t2)
          = (decide (d + 1 ≤ f + C) && protocolOK C (d + 1) f (t ++ t2)) := rfl
      have e2 : protocolOK C d f (qop.dep j :: t)
          = (decide (d + 1 ≤ f + C) && protocolOK C (d + 1) f t) := rfl
      have e3 : deps (qop.dep j :: t) = j :: deps t := rfl
      have e4 : nfet (qop.dep j :: t) = nfet t := rfl
      rw [e1, e2, e3, e4, ih]
      simp only [Bool.and_assoc, List.length_cons]
      have h1 : d + 1 + (deps t).length = d + ((deps t).length + 1) := by omega
      rw [h1]
    | fet =>
      have e1 : protocolOK C d f ((qop.fet :: t) ++ t2)
          = (decide (f + 1 ≤ d) && protocolOK C d (f + 1) (t ++ t2)) := rfl
      have e2 : protocolOK C d f (qop.fet :: t)
          = (decide (f + 1 ≤ d) && protocolOK C d (f + 1) t) := rfl
      have e3 : deps (qop.fet :: t) = deps t := rfl
      have e4 : nfet (qop.fet :: t) = nfet t + 1 := rfl
      rw [e1, e2, e3, e4, ih]
      simp only [Bool.and_assoc]
      have h2 : f + 1 + nfet t = f + (nfet t + 1) := by omega
      rw [h2]

lemma run_bounds (C : Nat) (hC : 0 < C) (t : List qop) :
    ∀ q : circular_queue, q.head < C → q.tail < C → q.data.length = C →
      (run C q t).head < C ∧ (run C q t).tail < C ∧ (run C q t).data.length = C := by
  induction t with
  | nil => intro q h1 h2 h3; exact ⟨h1, h2, h3⟩
  | cons x t ih =>
    intro q h1 h2 h3
    cases x with
    | dep j =>
      apply ih
      · exact h1
      · exact Nat.mod_lt _ hC
      · simpa [deposit_item] using h3
    | fet =>
      apply ih
      · exact Nat.mod_lt _ hC
      · exact h2
      · exact h3

lemma run_tail_eq (C : Nat) (hC : 0 < C) (t : List qop) :
    ∀ q : circular_queue, q.tail < C →
      (run C q t).tail = (q.tail + (deps t).length) % C := by
  induction t with
  | nil =>
    intro q hq
    simp [run, deps, Nat.mod_eq_of_lt hq]
  | cons x t ih =>
    intro q hq
    cases x with
    | dep j =>
      have h := ih (deposit_item C q j) (Nat.mod_lt _ hC)
      simp only [run, deposit_item] at h ⊢
      rw [h, Nat.mod_add_mod, deps, List.length_cons]
      ring_nf
    | fet =>
      have h := ih (fetch_item C q).2 (by simpa [fetch_item] using hq)
      simp only [run, fetch_item] at h ⊢
      rw [h, deps]

lemma run_head_eq (C : Nat) (hC : 0 < C) (t : List qop) :
    ∀ q : circular_queue, q.head < C →
      (run C q t).head = (q.head + nfet t) % C := by
  induction t with
  | nil =>
    intro q hq
    simp [run, nfet, Nat.mod_eq_of_lt hq]
  | cons x t ih =>
    intro q hq
    cases x with
    | dep j =>
      have h := ih (deposit_item C q j) (by simpa [deposit_item] using hq)
      simp only [run, deposit_item] at h ⊢
      rw [h, nfet]
    | fet =>
      have h := ih (fetch_item C q).2 (Nat.mod_lt _ hC)
      simp only [run, fetch_item] at h ⊢
      rw [h, Nat.mod_add_mod, nfet]
      ring_nf

/-- C6: starting from `initializeQueue C` with `C > 0`, after every sequence
of `deposit_item`/`fetch_item` calls the indices satisfy `head < C` and
`tail < C` (they are `Nat`s, so `0 ≤ head` and `0 ≤ tail` hold by type), and
the backing array keeps length `C`, so the slot read at `head` by
`fetch_item` and the slot written at `tail` by `deposit_item` are both within
the bounds of the `C`-slot array. -/
theorem queue_indices_in_bounds (C : Nat) (hC : 0 < C) (t : List qop) :
    (run C (initializeQueue C) t).head < C ∧
    (run C (initializeQueue C) t).tail < C ∧
    (run C (initializeQueue C) t).data.length = C := by
  exact run_bounds C hC t (initializeQueue C) hC hC (by simp [initializeQueue])

/-- C6 witness: capacity 2 and a concrete call sequence. -/
theorem queue_indices_in_bounds_witness :
    (run 2 (initializeQueue 2) [qop.dep ⟨1, 5⟩, qop.fet, qop.dep ⟨2, 6⟩]).head < 2 ∧
    (run 2 (initializeQueue 2) [qop.dep ⟨1, 5⟩, qop.fet, qop.dep ⟨2, 6⟩]).tail < 2 ∧
    (run 2 (initializeQueue 2) [qop.dep ⟨1, 5⟩, qop.fet, qop.dep ⟨2, 6⟩]).data.length = 2 :=
  queue_indices_in_bounds 2 (by decide) [qop.dep ⟨1, 5⟩, qop.fet, qop.dep ⟨2, 6⟩]

/-- C10: the job id a producer assigns at deposit time is the current tail
index plus one; after any call sequence `t` from `initializeQueue C` with
`C > 0` that id lies in `[1, C]`, and it equals `(number of deposits so far)
mod C + 1`, so the ids repeat cyclically as the tail wraps around. -/
theorem job_id_range (C : Nat) (hC : 0 < C) (t : List qop) :
    1 ≤ (run C (initializeQueue C) t).tail + 1 ∧
    (run C (initializeQueue C) t).tail + 1 ≤ C ∧
    (run C (initializeQueue C) t).tail + 1 = (deps t).length % C + 1 := by
  have hb := run_bounds C hC t (initializeQueue C) hC hC (by simp [initializeQueue])
  have ht := run_tail_eq C hC t (initializeQueue C) hC
  refine ⟨by omega, by omega, ?_⟩
  rw [ht]
  simp [initializeQueue]

/-- C10 witness: capacity 2, three deposits; the third deposit gets id 1
again as the tail wraps. -/
theorem job_id_range_witness :
    1 ≤ (run 2 (initializeQueue 2) [qop.dep ⟨1, 5⟩, qop.dep ⟨2, 6⟩]).tail + 1 ∧
    (run 2 (initializeQueue 2) [qop.dep ⟨1, 5⟩, qop.dep ⟨2, 6⟩]).tail + 1 ≤ 2 ∧
    (run 2 (initializeQueue 2) [qop.dep ⟨1, 5⟩, qop.dep ⟨2, 6⟩]).tail + 1 =
      (deps [qop.dep ⟨1, 5⟩, qop.dep ⟨2, 6⟩]).length % 2 + 1 :=
  job_id_range 2 (by decide) [qop.dep ⟨1, 5⟩, qop.dep ⟨2, 6⟩]

/-- Helper: two counters strictly less than a full cycle apart land on
different slots under `% C`. -/
lemma mod_ne_of_between (C a b : Nat) (hab : a < b) (h : b - a < C) :
    a % C ≠ b % C := by
  intro he
  have hdvd : C ∣ b - a := (Nat.modEq_iff_dvd' (le_of_lt hab)).mp he
  have := Nat.le_of_dvd (by omega) hdvd
  omega

/-- Helper: `getD` at an index below the length is a member of the list. -/
lemma getD_mem_of_lt {α : Type} (l : List α) (n : Nat) (d : α)
    (h : n < l.length) : l.getD n d ∈ l := by
  rw [List.getD, List.get?_eq_getElem?, List.getElem?_eq_getElem h,
    Option.getD_some]
  exact List.getElem_mem h

/-- Coupling invariant between the counter protocol and the queue state:
after `d` deposits and `f` fetches, the deposited-but-unfetched jobs `pend`
number `d - f`, `head` and `tail` are the fetch and deposit counts modulo
`C`, and the slots `(f + i) % C` hold the pending jobs in order. -/
def queueInv (C d f : Nat) (pend : List job) (q : circular_queue) : Prop :=
  f ≤ d ∧ d ≤ f + C ∧ pend.length = d - f ∧
  q.head = f % C ∧ q.tail = d % C ∧ q.data.length = C ∧
  ∀ i, i < pend.length → q.data.getD ((f + i) % C) default = pend.getD i default

lemma queueInv_deposit (C d f : Nat) (pend : List job) (q : circular_queue)
    (j : job) (hC : 0 < C) (hInv : queueInv C d f pend q)
    (hstep : d + 1 ≤ f + C) :
    queueInv C (d + 1) f (pend ++ [j]) (deposit_item C q j) := by
  obtain ⟨h1, h2, h3, h4, h5, h6, h7⟩ := hInv
  refine ⟨by omega, by omega, ?_, ?_, ?_, ?_, ?_⟩
  · simp only [List.length_append, List.length_cons, List.length_nil]
    omega
  · simpa [deposit_item] using h4
  · simp only [deposit_item]
    rw [h5]
    exact Nat.mod_add_mod d C 1
  · simp [deposit_item, h6]
  · intro i hi
    simp only [List.length_append, List.length_cons, List.length_nil] at hi
    by_cases hip : i < pend.length
    · have hne : (f + i) % C ≠ q.tail := by
        rw [h5]
        exact mod_ne_of_between C (f + i) d (by omega) (by omega)
      have hleft : (deposit_item C q j).data.getD ((f + i) % C) default
          = q.data.getD ((f + i) % C) default := by
        simp only [deposit_item, List.getD, List.get?_eq_getElem?]
        rw [List.getElem?_set_ne (Ne.symm hne)]
      have hright : (pend ++ [j]).getD i default = pend.getD i default := by
        simp [List.getD, List.getElem?_append, hip]
      rw [hleft, hright]
      exact h7 i hip
    · have hieq : i = pend.length := by omega
      have hslot : (f + i) % C = q.tail := by
        rw [h5]
        congr 1
        omega
      have htlt : q.tail < q.data.length := by
        rw [h5, h6]
        exact Nat.mod_lt _ hC
      have hleft : (deposit_item C q j).data.getD ((f + i) % C) default = j := by
        simp only [deposit_item]
        rw [hslot]
        simp [List.getD, List.get?_eq_getElem?, List.getElem?_set_self', htlt]
      have hright : (pend ++ [j]).getD i default = j := by
        rw [hieq]
        simp [List.getD, List.getElem?_append_right (le_refl _)]
      rw [hleft, hright]

lemma queueInv_fetch (C d f : Nat) (pend : List job) (q : circular_queue)
    (_hC : 0 < C) (hInv : queueInv C d f pend q) (hstep : f + 1 ≤ d) :
    (fetch_item C q).1 = pend.getD 0 default ∧
    queueInv C d (f + 1) (pend.drop 1) (fetch_item C q).2 := by
  obtain ⟨h1, h2, h3, h4, h5, h6, h7⟩ := hInv
  have hval : (fetch_item C q).1 = pend.getD 0 default := by
    have h0 := h7 0 (by omega)
    simp only [fetch_item]
    rw [h4]
    simpa using h0
  refine ⟨hval, by omega, by omega, ?_, ?_, h5, h6, ?_⟩
  · simp only [List.length_drop]
    omega
  · simp only [fetch_item]
    rw [h4]
    exact Nat.mod_add_mod f C 1
  · intro i hi
    simp only [List.length_drop] at hi
    have hmem := h7 (i + 1) (by omega)
    have harg : f + 1 + i = f + (i + 1) := by omega
    have hdrop : (pend.drop 1).getD i default = pend.getD (i + 1) default := by
      simp [List.getD, List.getElem?_drop]
    simp only [fetch_item]
    rw [harg, hdrop]
    exact hmem

lemma run_inv (C : Nat) (hC : 0 < C) :
    ∀ p : List qop, protocolOK C 0 0 p = true →
      queueInv C (deps p).length (nfet p) ((deps p).drop (nfet p))
        (run C (initializeQueue C) p) := by
  intro p
  induction p using List.reverseRecOn with
  | nil =>
    intro _
    refine ⟨le_refl 0, by simp [deps, nfet], rfl, rfl, rfl,
      by simp [run, initializeQueue], ?_⟩
    intro i hi
    simp [deps] at hi
  | append_singleton p x ih =>
    intro hp
    have hsplit := protocolOK_append C p [x] 0 0
    rw [hp] at hsplit
    have hboth := hsplit.symm
    rw [Bool.and_eq_true] at hboth
    obtain ⟨hpp, hx⟩ := hboth
    have hInv := ih hpp
    cases x with
    | dep j =>
      have hstep : (deps p).length + 1 ≤ nfet p + C := by
        simp only [protocolOK, Bool.and_true, decide_eq_true_eq] at hx
        omega
      have hrun : run C (initializeQueue C) (p ++ [qop.dep j])
          = deposit_item C (run C (initializeQueue C) p) j := by
        rw [run_append]
        rfl
      have hdeps : deps (p ++ [qop.dep j]) = deps p ++ [j] := by
        rw [deps_append]
        simp [deps]
      have hnf : nfet (p ++ [qop.dep j]) = nfet p := by
        rw [nfet_append]
        simp [nfet]
      have hdropapp : (deps p ++ [j]).drop (nfet p)
          = (deps p).drop (nfet p) ++ [j] :=
        List.drop_append_of_le_length hInv.1
      rw [hrun, hdeps, hnf, hdropapp, List.length_append]
      have hlen1 : (deps p).length + [j].length = (deps p).length + 1 := rfl
      rw [hlen1]
      exact queueInv_deposit C (deps p).length (nfet p) _ _ j hC hInv (by omega)
    | fet =>
      have hstep : nfet p + 1 ≤ (deps p).length := by
        simp only [protocolOK, Bool.and_true, decide_eq_true_eq] at hx
        omega
      have hrun : run C (initializeQueue C) (p ++ [qop.fet])
          = (fetch_item C (run C (initializeQueue C) p)).2 := by
        rw [run_append]
        rfl
      have hdeps : deps (p ++ [qop.fet]) = deps p := by
        rw [deps_append]
        simp [deps]
      have hnf : nfet (p ++ [qop.fet]) = nfet p + 1 := by
        rw [nfet_append]
        simp [nfet]
      have hdrop : (deps p).drop (nfet p + 1)
          = ((deps p).drop (nfet p)).drop 1 :=
        (List.drop_drop 1 (nfet p) (deps p)).symm
      rw [hrun, hdeps, hnf, hdrop]
      exact (queueInv_fetch C (deps p).length (nfet p) _ _ hC hInv
        (by omega)).2

/-- C1: along every call sequence that respects the counter protocol
(starting from `initializeQueue C` with `C > 0`), each `fetch_item` returns
the job of the `nfet p`-th earlier deposit — in particular a job previously
passed to some `deposit_item` — and each `deposit_item` writes the slot
`(number of deposits) % C`, every earlier deposit `k` into that same slot
(deposit `k` wrote slot `k % C`) having index below the number of fetches
already performed, i.e. its job has already been fetched. -/
theorem queue_protocol_safety (C : Nat) (hC : 0 < C) (t : List qop)
    (ht : protocolOK C 0 0 t = true) :
    (∀ p rest, t = p ++ qop.fet :: rest →
        (fetch_item C (run C (initializeQueue C) p)).1 =
          (deps p).getD (nfet p) default ∧
        (fetch_item C (run C (initializeQueue C) p)).1 ∈ deps p) ∧
    (∀ p j rest, t = p ++ qop.dep j :: rest →
        (run C (initializeQueue C) p).tail = (deps p).length % C ∧
        ∀ k, k < (deps p).length → k % C = (deps p).length % C →
          k < nfet p) := by
  constructor
  · intro p rest hsplit
    subst hsplit
    have hs := protocolOK_append C p (qop.fet :: rest) 0 0
    rw [ht] at hs
    have hboth := hs.symm
    rw [Bool.and_eq_true] at hboth
    obtain ⟨hpp, hx⟩ := hboth
    have hstep : nfet p + 1 ≤ (deps p).length := by
      simp only [protocolOK, Bool.and_eq_true, decide_eq_true_eq] at hx
      omega
    have hInv := run_inv C hC p hpp
    have hval := (queueInv_fetch C (deps p).length (nfet p) _ _ hC hInv
      (by omega)).1
    have hgd : ((deps p).drop (nfet p)).getD 0 default
        = (deps p).getD (nfet p) default := by
      simp [List.getD, List.getElem?_drop]
    constructor
    · rw [hval, hgd]
    · rw [hval, hgd]
      exact getD_mem_of_lt (deps p) (nfet p) default (by omega)
  · intro p j rest hsplit
    subst hsplit
    have hs := protocolOK_append C p (qop.dep j :: rest) 0 0
    rw [ht] at hs
    have hboth := hs.symm
    rw [Bool.and_eq_true] at hboth
    obtain ⟨hpp, hx⟩ := hboth
    have hstep : (deps p).length + 1 ≤ nfet p + C := by
      simp only [protocolOK, Bool.and_eq_true, decide_eq_true_eq] at hx
      omega
    have hInv := run_inv C hC p hpp
    refine ⟨hInv.2.2.2.2.1, ?_⟩
    intro k hk hkc
    have hdvd : C ∣ (deps p).length - k :=
      (Nat.modEq_iff_dvd' (le_of_lt hk)).mp hkc
    have hle := Nat.le_of_dvd (by omega) hdvd
    omega

/-- C1 witness: capacity 2, the protocol-respecting sequence deposit-fetch;
the fetch returns the deposited job. -/
theorem queue_protocol_safety_witness :
    (fetch_item 2 (run 2 (initializeQueue 2) [qop.dep ⟨1, 5⟩])).1 ∈
      deps [qop.dep ⟨1, 5⟩] := by
  have h := (queue_protocol_safety 2 (by decide) [qop.dep ⟨1, 5⟩, qop.fet]
    (by decide)).1
  exact (h [qop.dep ⟨1, 5⟩] [] rfl).2

/-- Observable event of one producer thread (main.cc lines 119-169):
semaphore operations, the job-id computation from the shared tail, the queue
call and the printf lines, in program order. -/
inductive pevent where
  | timed_wait_space
  | wait_mutex
  | assign_job_id (id : Int)
  | deposit (j : job)
  | signal_mutex
  | signal_item
  | print_job (producer_id : Int) (j : job)
  | print_timeout (producer_id : Int)
  | print_no_more_jobs (producer_id : Int)
  deriving DecidableEq, Repr

/-- One iteration of the producer loop body (main.cc lines 129-161): the
timed wait on `space` (its outcome `timeout` is an oracle), then — on
success — the wait on `mutex`, the job-id assignment reading the shared
tail (`my_queue.tail + 1`), the `deposit_item` call, the signals on `mutex`
and `item`, and the deposit printf.  Returns the events in program order and
the resulting queue state. -/
def producer_iteration (buffer_size : Nat) (producer_id : Int)
    (q : circular_queue) (duration : Int) (timeout : Bool) :
    List pevent × circular_queue :=
  if timeout then
    ([pevent.timed_wait_space, pevent.print_timeout producer_id], q)
  else
    let temp_job : job := { job_id := (q.tail : Int) + 1, duration := duration }
    ([pevent.timed_wait_space, pevent.wait_mutex,
      pevent.assign_job_id ((q.tail : Int) + 1),
      pevent.deposit temp_job,
      pevent.signal_mutex, pevent.signal_item,
      pevent.print_job producer_id temp_job],
     deposit_item buffer_size q temp_job)

/-- The producer `for` loop (main.cc lines 127-161): runs the loop body for
`remaining` more iterations starting at iteration index `i` (oracles
`durations` and `touts` give each iteration's produced duration and
timed-wait outcome), breaking at the first timeout.  Returns the
concatenated events, the final queue state and the final value of the
`timeout` flag. -/
def producer_loop (buffer_size : Nat) (producer_id : Int)
    (durations : Nat → Int) (touts : Nat → Bool) :
    Nat → Nat → circular_queue → List pevent × circular_queue × Bool
  | _, 0, q => ([], q, false)
  | i, remaining + 1, q =>
    let step := producer_iteration buffer_size producer_id q (durations i)
      (touts i)
    if touts i then (step.1, step.2, true)
    else
      let rest := producer_loop buffer_size producer_id durations touts
        (i + 1) remaining step.2
      (step.1 ++ rest.1, rest.2.1, rest.2.2)

/-- The whole producer thread body (main.cc lines 119-169): the loop over
`jobs_per_producer` iterations followed by the no-more-jobs printf, which is
emitted exactly when the `timeout` flag is still false after the loop. -/
def producer (buffer_size : Nat) (producer_id : Int) (jobs_per_producer : Nat)
    (durations : Nat → Int) (touts : Nat → Bool) (q : circular_queue) :
    List pevent × circular_queue :=
  let r := producer_loop buffer_size producer_id durations touts 0
    jobs_per_producer q
  (r.1 ++ (if r.2.2 then [] else [pevent.print_no_more_jobs producer_id]),
   r.2.1)

/-- Whether a producer event is a call to `deposit_item`. -/
def is_deposit_event : pevent → Bool
  | pevent.deposit _ => true
  | _ => false

/-- Number of `deposit_item` calls recorded in a producer event list. -/
def num_deposits (l : List pevent) : Nat :=
  (l.filter is_deposit_event).length

/-- C2: in every producer iteration whose timed wait on `space` succeeds,
the events are, in program order: the timed wait on `space`, the wait on
`mutex`, the assignment of the job id read from the shared tail
(`tail + 1`), the `deposit_item` call, then the signals on `mutex` and
`item`; no job-id assignment occurs at a position before the mutex wait, so
the tail is read while the mutex is held, and the queue update is exactly
`deposit_item` with that job. -/
theorem producer_iteration_order (buffer_size : Nat) (producer_id : Int)
    (q : circular_queue) (duration : Int) :
    (producer_iteration buffer_size producer_id q duration false).1 =
      [pevent.timed_wait_space, pevent.wait_mutex,
       pevent.assign_job_id ((q.tail : Int) + 1),
       pevent.deposit { job_id := (q.tail : Int) + 1, duration := duration },
       pevent.signal_mutex, pevent.signal_item,
       pevent.print_job producer_id
         { job_id := (q.tail : Int) + 1, duration := duration }] ∧
    (∀ k, k < 2 → ∀ id,
      ((producer_iteration buffer_size producer_id q duration false).1).getD k
          pevent.timed_wait_space ≠ pevent.assign_job_id id) ∧
    (producer_iteration buffer_size producer_id q duration false).2 =
      deposit_item buffer_size q
        { job_id := (q.tail : Int) + 1, duration := duration } := by
  refine ⟨rfl, ?_, rfl⟩
  intro k hk id
  interval_cases k <;> simp [producer_iteration]

/-- C2 witness: capacity 2, the initialized queue, duration 7; position 0
(before the mutex wait) holds no job-id assignment. -/
theorem producer_iteration_order_witness :
    ((producer_iteration 2 1 (initializeQueue 2) 7 false).1).getD 0
        pevent.timed_wait_space ≠ pevent.assign_job_id 5 :=
  (producer_iteration_order 2 1 (initializeQueue 2) 7).2.1 0 (by decide) 5

lemma num_deposits_append (l l' : List pevent) :
    num_deposits (l ++ l') = num_deposits l + num_deposits l' := by
  simp [num_deposits, List.filter_append]

lemma producer_loop_flag (buffer_size : Nat) (producer_id : Int)
    (durations : Nat → Int) (touts : Nat → Bool) :
    ∀ remaining i q,
      ((producer_loop buffer_size producer_id durations touts i remaining
          q).2.2 = false ↔
        ∀ m, m < remaining → touts (i + m) = false) := by
  intro remaining
  induction remaining with
  | zero =>
    intro i q
    simp [producer_loop]
  | succ rem ih =>
    intro i q
    cases hti : touts i with
    | true =>
      simp only [producer_loop, hti, if_true]
      constructor
      · intro h
        cases h
      · intro h
        have h0 := h 0 (Nat.succ_pos rem)
        rw [Nat.add_zero, hti] at h0
        cases h0
    | false =>
      simp only [producer_loop, hti, if_false, Bool.false_eq_true]
      rw [ih (i + 1)]
      constructor
      · intro h m hm
        cases m with
        | zero =>
          rw [Nat.add_zero]
          exact hti
        | succ m' =>
          have hstep := h m' (by omega)
          have harg : i + 1 + m' = i + (m' + 1) := by omega
          rw [harg] at hstep
          exact hstep
      · intro h m hm
        have hstep := h (m + 1) (by omega)
        have harg : i + (m + 1) = i + 1 + m := by omega
        rw [harg] at hstep
        exact hstep

lemma producer_loop_no_exhaustion (buffer_size : Nat)
    (producer_id other_id : Int) (durations : Nat → Int) (touts : Nat → Bool) :
    ∀ remaining i q,
      pevent.print_no_more_jobs other_id ∉
        (producer_loop buffer_size producer_id durations touts i remaining
          q).1 := by
  intro remaining
  induction remaining with
  | zero =>
    intro i q
    simp [producer_loop]
  | succ rem ih =>
    intro i q
    cases hti : touts i with
    | true =>
      simp [producer_loop, hti, producer_iteration]
    | false =>
      simp only [producer_loop, hti, if_false, Bool.false_eq_true,
        List.mem_append]
      intro hmem
      rcases hmem with hl | hr
      · simp [producer_iteration] at hl
      · exact ih (i + 1) _ hr

lemma producer_loop_timeout (buffer_size : Nat) (producer_id : Int)
    (durations : Nat → Int) (touts : Nat → Bool) :
    ∀ remaining k i q, k < remaining → touts (i + k) = true →
      (∀ m, m < k → touts (i + m) = false) →
      num_deposits (producer_loop buffer_size producer_id durations touts i
        remaining q).1 = k ∧
      (producer_loop buffer_size producer_id durations touts i remaining
        q).1.getLast? = some (pevent.print_timeout producer_id) := by
  intro remaining
  induction remaining with
  | zero =>
    intro k i q hk
    exact absurd hk (Nat.not_lt_zero k)
  | succ rem ih =>
    intro k i q hk htk hbefore
    cases k with
    | zero =>
      rw [Nat.add_zero] at htk
      simp only [producer_loop, htk, if_true]
      constructor
      · simp [producer_iteration, htk, num_deposits, is_deposit_event]
      · simp [producer_iteration, htk]
    | succ kk =>
      have hti : touts i = false := by
        have h0 := hbefore 0 (Nat.succ_pos kk)
        rw [Nat.add_zero] at h0
        exact h0
      have htk' : touts (i + 1 + kk) = true := by
        have harg : i + 1 + kk = i + (kk + 1) := by omega
        rw [harg]
        exact htk
      have hbefore' : ∀ m, m < kk → touts (i + 1 + m) = false := by
        intro m hm
        have harg : i + 1 + m = i + (m + 1) := by omega
        rw [harg]
        exact hbefore (m + 1) (by omega)
      have hrest := ih kk (i + 1) (producer_iteration buffer_size producer_id
        q (durations i) false).2 (by omega) htk' hbefore'
      have hne : (producer_loop buffer_size producer_id durations touts
          (i + 1) rem (producer_iteration buffer_size producer_id q
            (durations i) false).2).1 ≠ [] := by
        intro hnil
        rw [hnil] at hrest
        cases hrest.2
      simp only [producer_loop, hti, if_false, Bool.false_eq_true]
      constructor
      · rw [num_deposits_append]
        rw [hrest.1]
        have hone : num_deposits (producer_iteration buffer_size producer_id
            q (durations i) false).1 = 1 := rfl
        rw [hone]
        omega
      · rw [List.getLast?_append_of_ne_nil _ hne]
        exact hrest.2

/-- C7: a producer prints the job-exhaustion message iff its loop ran
through all `jobs_per_producer` iterations with no timed wait on `space`
timing out; and when the first timeout occurs at iteration `k`, the
producer's event list holds exactly the `k` earlier deposits (no further
deposit), ends with the timeout-termination message, and does not hold the
exhaustion message. -/
theorem producer_termination_messages (buffer_size : Nat) (producer_id : Int)
    (jobs_per_producer : Nat) (durations : Nat → Int) (touts : Nat → Bool)
    (q : circular_queue) :
    (pevent.print_no_more_jobs producer_id ∈
        (producer buffer_size producer_id jobs_per_producer durations touts
          q).1 ↔
      ∀ i, i < jobs_per_producer → touts i = false) ∧
    (∀ k, k < jobs_per_producer → touts k = true →
      (∀ i, i < k → touts i = false) →
      num_deposits (producer buffer_size producer_id jobs_per_producer
        durations touts q).1 = k ∧
      (producer buffer_size producer_id jobs_per_producer durations touts
        q).1.getLast? = some (pevent.print_timeout producer_id) ∧
      pevent.print_no_more_jobs producer_id ∉
        (producer buffer_size producer_id jobs_per_producer durations touts
          q).1) := by
  constructor
  · cases hflag : (producer_loop buffer_size producer_id durations touts 0
        jobs_per_producer q).2.2 with
    | false =>
      have hall := (producer_loop_flag buffer_size producer_id durations
        touts jobs_per_producer 0 q).mp hflag
      constructor
      · intro _ i hi
        have := hall i hi
        rw [Nat.zero_add] at this
        exact this
      · intro _
        simp [producer, hflag]
    | true =>
      constructor
      · intro hmem
        exfalso
        simp only [producer, hflag, if_true, List.append_nil] at hmem
        exact producer_loop_no_exhaustion buffer_size producer_id producer_id
          durations touts jobs_per_producer 0 q hmem
      · intro hall
        exfalso
        have hfalse : (producer_loop buffer_size producer_id durations touts
            0 jobs_per_producer q).2.2 = false := by
          rw [producer_loop_flag]
          intro m hm
          rw [Nat.zero_add]
          exact hall m hm
        rw [hflag] at hfalse
        cases hfalse
  · intro k hk htk hbefore
    have hflag : (producer_loop buffer_size producer_id durations touts 0
        jobs_per_producer q).2.2 = true := by
      cases hf : (producer_loop buffer_size producer_id durations touts 0
          jobs_per_producer q).2.2 with
      | true => rfl
      | false =>
        exfalso
        have hall := (producer_loop_flag buffer_size producer_id durations
          touts jobs_per_producer 0 q).mp hf
        have := hall k hk
        rw [Nat.zero_add, htk] at this
        cases this
    have hto := producer_loop_timeout buffer_size producer_id durations touts
      jobs_per_producer k 0 q hk (by rw [Nat.zero_add]; exact htk)
      (by intro m hm; rw [Nat.zero_add]; exact hbefore m hm)
    refine ⟨?_, ?_, ?_⟩
    · simp only [producer, hflag, if_true, List.append_nil]
      exact hto.1
    · simp only [producer, hflag, if_true, List.append_nil]
      exact hto.2
    · simp only [producer, hflag, if_true, List.append_nil]
      exact producer_loop_no_exhaustion buffer_size producer_id producer_id
        durations touts jobs_per_producer 0 q

/-- C7 witness: two configured jobs, timeout at iteration 1 — exactly one
deposit, the trace ends with the timeout message, and the exhaustion message
is absent. -/
theorem producer_termination_messages_witness :
    num_deposits (producer 2 1 2 (fun _ => 5) (fun i => decide (i = 1))
      (initializeQueue 2)).1 = 1 ∧
    (producer 2 1 2 (fun _ => 5) (fun i => decide (i = 1))
      (initializeQueue 2)).1.getLast? = some (pevent.print_timeout 1) ∧
    pevent.print_no_more_jobs 1 ∉
      (producer 2 1 2 (fun _ => 5) (fun i => decide (i = 1))
        (initializeQueue 2)).1 :=
  (producer_termination_messages 2 1 2 (fun _ => 5)
      (fun i => decide (i = 1)) (initializeQueue 2)).2 1 (by decide)
    (by decide) (by decide)

/-- `sem_init` (helper.cc lines 36-43): sets semaphore `num` of the set to
`value` via `semctl(SETVAL)` and returns 0, or returns -1 leaving the values
unchanged when the `semctl` call fails; whether the OS call fails is the
oracle `fails`.  The semaphore set (the handle `id` of the source) is
modelled by its value table `sems`. -/
def sem_init (sems : Nat → Int) (num : Nat) (value : Int) (fails : Bool) :
    Int × (Nat → Int) :=
  if fails then (-1, sems) else (0, Function.update sems num value)

/-- `initialize_required_semaphores` (main.cc lines 248-267): initializes
`item` to 0, then `space` to `buffer_size`, then `mutex` to 1, stopping at
the first failing `sem_init` and returning `errno` (the OS error code left
by the failed call, an oracle here); returns `NO_ERROR` when all three
succeed. -/
def initialize_required_semaphores (buffer_size : Int) (sems : Nat → Int)
    (fail_item fail_space fail_mutex : Bool) (errno : Int) :
    Int × (Nat → Int) :=
  let r1 := sem_init sems item 0 fail_item
  if r1.1 ≠ 0 then (errno, r1.2)
  else
    let r2 := sem_init r1.2 space buffer_size fail_space
    if r2.1 ≠ 0 then (errno, r2.2)
    else
      let r3 := sem_init r2.2 mutex 1 fail_mutex
      if r3.1 ≠ 0 then (errno, r3.2) else (NO_ERROR, r3.2)

/-- C5: when `initialize_required_semaphores` succeeds (none of the three
`semctl` calls fails), it returns `NO_ERROR` and the counters are
initialized exactly to `item = 0`, `space = buffer_size` (the configured
capacity) and `mutex = 1`. -/
theorem initialize_semaphores_values (buffer_size : Int) (sems : Nat → Int)
    (errno : Int) :
    (initialize_required_semaphores buffer_size sems false false false
      errno).1 = NO_ERROR ∧
    (initialize_required_semaphores buffer_size sems false false false
      errno).2 item = 0 ∧
    (initialize_required_semaphores buffer_size sems false false false
      errno).2 space = buffer_size ∧
    (initialize_required_semaphores buffer_size sems false false false
      errno).2 mutex = 1 := by
  refine ⟨rfl, ?_, ?_, ?_⟩ <;>
    simp [initialize_required_semaphores, sem_init, Function.update,
      item, space, mutex]

/-- Observable effect of the part of `main` that runs once `sem_create`
succeeded (main.cc lines 84-116). -/
inductive mevent where
  | call_sem_close
  | alloc_queue
  | spawn_producer (producer_id : Nat)
  | spawn_consumer (consumer_id : Nat)
  deriving DecidableEq, Repr

/-- The tail of `main` after a successful `sem_create` (main.cc lines
84-116): if `initialize_required_semaphores` returns anything other than
`NO_ERROR`, main prints the `semctl` diagnostic, calls `sem_close` on the
set and returns `errno`; otherwise it allocates the queue, spawns the
producer and then the consumer threads (1-based ids), joins them, calls
`sem_close` and returns `NO_ERROR`.  The list records those effects in
program order. -/
def main_after_create (buffer_size : Int) (sems : Nat → Int)
    (number_of_producers number_of_consumers : Nat)
    (fail_item fail_space fail_mutex : Bool) (errno : Int) :
    List mevent × Int :=
  if (initialize_required_semaphores buffer_size sems fail_item fail_space
      fail_mutex errno).1 ≠ NO_ERROR then
    ([mevent.call_sem_close], errno)
  else
    (mevent.alloc_queue ::
      ((List.range number_of_producers).map
          (fun pid => mevent.spawn_producer (pid + 1)) ++
        (List.range number_of_consumers).map
          (fun cid => mevent.spawn_consumer (cid + 1)) ++
        [mevent.call_sem_close]),
     NO_ERROR)

/-- C9: if any of the three counter initializations fails (with a nonzero OS
error code, as `errno` after a failed `semctl` always is), the tail of
`main` tears down the already-created semaphore set — its entire effect list
is the single `sem_close` call, so it happens before termination, no worker
thread is spawned and no queue storage is allocated — and the exit status is
the OS error code `errno`. -/
theorem main_teardown_on_init_failure (buffer_size : Int) (sems : Nat → Int)
    (np nc : Nat) (fail_item fail_space fail_mutex : Bool) (errno : Int)
    (hfail : fail_item = true ∨ fail_space = true ∨ fail_mutex = true)
    (herr : errno ≠ NO_ERROR) :
    main_after_create buffer_size sems np nc fail_item fail_space fail_mutex
      errno = ([mevent.call_sem_close], errno) ∧
    (∀ p, mevent.spawn_producer p ∉ (main_after_create buffer_size sems np nc
      fail_item fail_space fail_mutex errno).1) ∧
    (∀ c, mevent.spawn_consumer c ∉ (main_after_create buffer_size sems np nc
      fail_item fail_space fail_mutex errno).1) ∧
    mevent.alloc_queue ∉ (main_after_create buffer_size sems np nc fail_item
      fail_space fail_mutex errno).1 := by
  have hstat : (initialize_required_semaphores buffer_size sems fail_item
      fail_space fail_mutex errno).1 = errno := by
    cases fail_item <;> cases fail_space <;> cases fail_mutex <;>
      simp_all [initialize_required_semaphores, sem_init]
  have hmain : main_after_create buffer_size sems np nc fail_item fail_space
      fail_mutex errno = ([mevent.call_sem_close], errno) := by
    simp only [main_after_create, hstat]
    rw [if_pos herr]
  refine ⟨hmain, ?_, ?_, ?_⟩ <;> rw [hmain] <;> simp

/-- C9 witness: `space` fails to initialize with errno 17; the effect list
is exactly the teardown `sem_close` and the status is 17. -/
theorem main_teardown_on_init_failure_witness :
    main_after_create 3 (fun _ => 0) 2 2 false true false 17
      = ([mevent.call_sem_close], 17) :=
  (main_teardown_on_init_failure 3 (fun _ => 0) 2 2 false true false 17
    (Or.inr (Or.inl rfl)) (by decide)).1
